import Mathlib

/-!
Verification of the OpenCodeRouter core (registry, slug derivation, router
dispatch, resolve API, mDNS advertiser reconciliation) against its Go source.

The Go maps `backends : map[string]*Backend` and `byPort : map[int]string`
are embedded as association lists with map semantics: `lookupA` finds the
first binding, `insertA` replaces in place or appends, `eraseA` removes the
binding.  States built from the empty registry by the registry operations
keep their keys unique, so these lists behave exactly like the Go maps
(Go's nondeterministic map iteration order is fixed to list order; no claim
below depends on iteration order).
-/

set_option maxHeartbeats 1000000

/-- Association-list lookup, mirroring `m[k]` on a Go map. -/
def lookupA {α β : Type} [DecidableEq α] : List (α × β) → α → Option β
  | [], _ => none
  | (k', v') :: rest, k => if k' = k then some v' else lookupA rest k

/-- Association-list insert, mirroring `m[k] = v` on a Go map. -/
def insertA {α β : Type} [DecidableEq α] : List (α × β) → α → β → List (α × β)
  | [], k, v => [(k, v)]
  | (k', v') :: rest, k, v =>
    if k' = k then (k, v) :: rest else (k', v') :: insertA rest k v

/-- Association-list erase, mirroring `delete(m, k)` on a Go map. -/
def eraseA {α β : Type} [DecidableEq α] : List (α × β) → α → List (α × β)
  | [], _ => []
  | (k', v') :: rest, k =>
    if k' = k then rest else (k', v') :: eraseA rest k

theorem lookupA_insertA_self {α β : Type} [DecidableEq α]
    (l : List (α × β)) (k : α) (v : β) : lookupA (insertA l k v) k = some v := by
  induction l with
  | nil => simp [insertA, lookupA]
  | cons hd tl ih =>
    obtain ⟨k', v'⟩ := hd
    by_cases h : k' = k <;> simp [insertA, lookupA, h, ih]

theorem lookupA_insertA_ne {α β : Type} [DecidableEq α]
    (l : List (α × β)) (k k' : α) (v : β) (h : k ≠ k') :
    lookupA (insertA l k v) k' = lookupA l k' := by
  induction l with
  | nil => simp [insertA, lookupA, h]
  | cons hd tl ih =>
    obtain ⟨k₀, v₀⟩ := hd
    by_cases h₀ : k₀ = k
    · subst h₀; simp [insertA, lookupA, h]
    · simp only [insertA, if_neg h₀]
      by_cases h₁ : k₀ = k' <;> simp [lookupA, h₁, ih]

theorem lookupA_eraseA_ne {α β : Type} [DecidableEq α]
    (l : List (α × β)) (k k' : α) (h : k ≠ k') :
    lookupA (eraseA l k) k' = lookupA l k' := by
  induction l with
  | nil => simp [eraseA]
  | cons hd tl ih =>
    obtain ⟨k₀, v₀⟩ := hd
    by_cases h₀ : k₀ = k
    · subst h₀; simp [eraseA, lookupA, h]
    · by_cases h₁ : k₀ = k' <;> simp [eraseA, lookupA, h₀, h₁, ih, Ne.symm h]

theorem mem_insertA {α β : Type} [DecidableEq α]
    (l : List (α × β)) (k : α) (v : β) (p : α × β) (hp : p ∈ insertA l k v) :
    p ∈ l ∨ p = (k, v) := by
  induction l with
  | nil => simp [insertA] at hp; simp [hp]
  | cons hd tl ih =>
    obtain ⟨k₀, v₀⟩ := hd
    by_cases h₀ : k₀ = k
    · simp [insertA, h₀] at hp
      rcases hp with h | h
      · right; simp [h]
      · left; simp [h]
    · simp [insertA, h₀] at hp
      rcases hp with h | h
      · left; simp [h]
      · rcases ih h with h' | h'
        · left; simp [h']
        · right; exact h'

theorem mem_eraseA {α β : Type} [DecidableEq α]
    (l : List (α × β)) (k : α) (p : α × β) (hp : p ∈ eraseA l k) : p ∈ l := by
  induction l with
  | nil => simp [eraseA] at hp
  | cons hd tl ih =>
    obtain ⟨k₀, v₀⟩ := hd
    by_cases h₀ : k₀ = k
    · simp [eraseA, h₀] at hp
      simp [hp]
    · simp [eraseA, h₀] at hp
      rcases hp with h | h
      · simp [h]
      · simp [ih h]

/-! ## Slug derivation (`Slugify` in internal/registry/registry.go)

`Slugify` takes `filepath.Base`, lowercases, replaces every character
outside `[a-z0-9-]` with `-`, collapses runs of `-`, trims `-` from both
ends, and falls back to `"default"` when empty.  The string pipeline is
embedded character-wise over `List Char`.  `strings.ToLower` maps Unicode;
it is embedded as ASCII case folding — every character it could affect
beyond ASCII is replaced by `-` in the next step anyway, except exotic
case pairs that do not occur in file-system paths of interest. -/

/-- Membership test for the slug alphabet `[a-z0-9-]` of the regex
`nonAlphaNum` in registry.go. -/
def isAllowedChar (c : Char) : Bool :=
  decide ((97 ≤ c.toNat ∧ c.toNat ≤ 122) ∨ (48 ≤ c.toNat ∧ c.toNat ≤ 57) ∨ c.toNat = 45)

/-- ASCII case folding, the fragment of `strings.ToLower` relevant here. -/
def lowerChar (c : Char) : Char :=
  if 65 ≤ c.toNat ∧ c.toNat ≤ 90 then Char.ofNat (c.toNat + 32) else c

/-- One step of `nonAlphaNum.ReplaceAllString(slug, "-")`: the regex class
is a single character, so the replacement is character-wise. -/
def replaceChar (c : Char) : Char :=
  if isAllowedChar c then c else '-'

/-- `multiHyphen.ReplaceAllString(slug, "-")`: collapse each run of
hyphens to a single hyphen. -/
def collapseHyphens : List Char → List Char
  | [] => []
  | [c] => [c]
  | a :: b :: rest =>
    if a = '-' ∧ b = '-' then collapseHyphens (b :: rest)
    else a :: collapseHyphens (b :: rest)

/-- Drop a trailing run of characters satisfying `p` (used for the
right-hand side of `strings.Trim` and for `filepath.Base`'s
trailing-separator strip). -/
def dropTrailing (p : Char → Bool) : List Char → List Char
  | [] => []
  | c :: cs =>
    match dropTrailing p cs with
    | [] => if p c then [] else [c]
    | r => c :: r

/-- `strings.Trim(slug, "-")`: drop leading and trailing hyphens. -/
def trimHyphens (l : List Char) : List Char :=
  dropTrailing (fun c => c = '-') (l.dropWhile (fun c => c = '-'))

/-- The segment after the last `/`, or the whole list when there is no
slash (the `strings.LastIndexByte` step of `filepath.Base`). -/
def afterLastSlash (l : List Char) : List Char :=
  (l.reverse.takeWhile (fun c => c ≠ '/')).reverse

/-- `filepath.Base` on Unix paths. -/
def basenameL (l : List Char) : List Char :=
  if l = [] then ['.']
  else
    let l1 := dropTrailing (fun c => c = '/') l
    if l1 = [] then ['/']
    else
      let l2 := afterLastSlash l1
      if l2 = [] then ['/'] else l2

/-- The full `Slugify` pipeline on character lists. -/
def slugifyL (l : List Char) : List Char :=
  let r := trimHyphens (collapseHyphens (((basenameL l).map lowerChar).map replaceChar))
  if r = [] then ['d', 'e', 'f', 'a', 'u', 'l', 't'] else r

/-- `Slugify` from internal/registry/registry.go. -/
def Slugify (projectPath : String) : String :=
  String.mk (slugifyL projectPath.data)

example : Slugify "/home/alice/myproject" = "myproject" := by decide
example : Slugify "/home/alice/MyProject" = "myproject" := by decide
example : Slugify "/home/alice/My Awesome Project" = "my-awesome-project" := by decide
example : Slugify "/home/alice/project.v2" = "project-v2" := by decide
example : Slugify "/home/alice/proj@#$%ect!" = "proj-ect" := by decide
example : Slugify "" = "default" := by decide
example : Slugify "///" = "default" := by decide
example : Slugify "/y/proj-4096" = "proj-4096" := by decide

/-! ## The registry (internal/registry/registry.go) -/

/-- `Backend` from registry.go.  `time.Time` is embedded as a `Nat`
timestamp; `int` ports as `Int`. -/
structure Backend where
  port : Int
  projectName : String
  projectPath : String
  slug : String
  version : String
  lastSeen : Nat
deriving DecidableEq, Repr

/-- Decimal digit characters, the base-10 fragment of Go's integer
formatting. -/
def digitChar10 (n : Nat) : Char :=
  match n with
  | 0 => '0' | 1 => '1' | 2 => '2' | 3 => '3' | 4 => '4'
  | 5 => '5' | 6 => '6' | 7 => '7' | 8 => '8' | _ => '9'

/-- Decimal digits of a natural number, most significant first; `fuel`
bounds the recursion and always suffices at `n + 1`. -/
def natDecAux : Nat → Nat → List Char
  | 0, _ => []
  | fuel + 1, n =>
    if n < 10 then [digitChar10 n]
    else natDecAux fuel (n / 10) ++ [digitChar10 (n % 10)]

/-- Decimal representation of a `Nat`. -/
def natDec (n : Nat) : List Char :=
  natDecAux (n + 1) n

/-- Go's `fmt.Sprintf("%d", i)` for an `int`. -/
def intDec (i : Int) : String :=
  if i < 0 then String.mk ('-' :: natDec (-i).toNat) else String.mk (natDec i.toNat)

example : intDec 4096 = "4096" := by decide
example : intDec 0 = "0" := by decide
example : intDec (-17) = "-17" := by decide

/-- The two indices of `Registry` (the mutex, logger and the `staleAfter`
configuration constant are not part of the transition data; `staleAfter`
is passed to `prune` alongside the current time). -/
structure RegState where
  backends : List (String × Backend)
  byPort : List (Int × String)
deriving DecidableEq, Repr

/-- `Registry.New`: both maps start empty. -/
def emptyReg : RegState := ⟨[], []⟩

/-- `Registry.Upsert(port, projectName, projectPath, version)`; `now` is
the value `time.Now()` would produce during the call.  Returns the new
state and the `bool` result (`true` = new entry). -/
def upsert (st : RegState) (now : Nat) (port : Int)
    (projectName projectPath version : String) : RegState × Bool :=
  let slug := Slugify projectPath
  -- Check if this port was previously registered under a different slug.
  let backends₀ :=
    match lookupA st.byPort port with
    | some oldSlug => if oldSlug ≠ slug then eraseA st.backends oldSlug else st.backends
    | none => st.backends
  match lookupA backends₀ slug with
  | some existing =>
    if existing.projectPath = projectPath ∨ existing.port = port then
      -- Same project or same port — update in place.
      let byPort₁ := if existing.port ≠ port then eraseA st.byPort existing.port else st.byPort
      let b' : Backend :=
        { existing with
            port := port, projectName := projectName, projectPath := projectPath,
            version := version, lastSeen := now }
      (⟨insertA backends₀ slug b', insertA byPort₁ port slug⟩, false)
    else
      -- Slug collision: different project produces the same slug.
      -- Disambiguate by appending the port number.
      let slug' := slug ++ "-" ++ intDec port
      let b : Backend := ⟨port, projectName, projectPath, slug', version, now⟩
      (⟨insertA backends₀ slug' b, insertA st.byPort port slug'⟩, true)
  | none =>
    let b : Backend := ⟨port, projectName, projectPath, slug, version, now⟩
    (⟨insertA backends₀ slug b, insertA st.byPort port slug⟩, true)

/-- Staleness test `time.Since(b.LastSeen) > r.staleAfter` (a last-seen
time in the future is not stale, matching the signed Go comparison). -/
def isStale (now staleAfter : Nat) (b : Backend) : Bool :=
  decide (now - b.lastSeen > staleAfter)

/-- `Registry.Prune()`: remove every stale backend from both indices and
return the removed slugs. -/
def prune (st : RegState) (now staleAfter : Nat) : RegState × List String :=
  let staleEntries := st.backends.filter (fun p => isStale now staleAfter p.2)
  (⟨st.backends.filter (fun p => !(isStale now staleAfter p.2)),
    st.byPort.filter (fun q => !(staleEntries.any (fun p => p.2.port == q.1)))⟩,
   staleEntries.map (fun p => p.1))

/-- `Registry.Lookup(slug)`; `none` is the `ok = false` miss. -/
def lookupSlug (st : RegState) (slug : String) : Option Backend :=
  lookupA st.backends slug

/-- `Registry.LookupByPort(port)`.  The source reads
`b := r.backends[slug]` with no presence check and dereferences `b`; a
port whose slug is missing from `backends` therefore dereferences nil.
That dereference shows up here as the inner lookup returning `none`. -/
def lookupByPort (st : RegState) (port : Int) : Option Backend :=
  match lookupA st.byPort port with
  | none => none
  | some slug => lookupA st.backends slug

/-- `Registry.LookupByPath(projectPath)`: exact path match first, then
slug fallback. -/
def lookupByPath (st : RegState) (projectPath : String) : Option Backend :=
  match st.backends.find? (fun p => p.2.projectPath = projectPath) with
  | some p => some p.2
  | none => lookupA st.backends (Slugify projectPath)

/-- Registry states reachable from `Registry.New` by `Upsert` and `Prune`
calls (`now` values are arbitrary, matching an arbitrary wall clock). -/
inductive Reach : RegState → Prop
  | init : Reach emptyReg
  | upsert (st : RegState) (now : Nat) (port : Int) (n p v : String) :
      Reach st → Reach (upsert st now port n p v).1
  | prune (st : RegState) (now staleAfter : Nat) :
      Reach st → Reach (prune st now staleAfter).1

/-! ## Concrete registry traces

`regStC` is reached by three `Upsert` calls; its collision step overwrites
the already-registered slug `proj-4096` and leaves two ports owning that
slug.  `regStD` extends it by a project change on port 4097, which deletes
the backend `proj-4096` while port 4096 still points at it. -/

def regStA : RegState := (upsert emptyReg 1 5000 "a" "/x/proj" "1").1

def regStB : RegState := (upsert regStA 2 4097 "b" "/y/proj-4096" "1").1

def regStC : RegState := (upsert regStB 3 4096 "c" "/z/proj" "1").1

def regStD : RegState := (upsert regStC 4 4097 "d" "/w/other" "1").1

theorem reach_regStD : Reach regStD ∧ Reach regStC :=
  have hA : Reach regStA := Reach.upsert _ _ _ _ _ _ Reach.init
  have hB : Reach regStB := Reach.upsert _ _ _ _ _ _ hA
  have hC : Reach regStC := Reach.upsert _ _ _ _ _ _ hB
  ⟨Reach.upsert _ _ _ _ _ _ hC, hC⟩

/-- C1: the registry invariants I1–I4 do NOT survive every sequence of
`Upsert` calls.  After `Upsert(5000, "a", "/x/proj", "1")`,
`Upsert(4097, "b", "/y/proj-4096", "1")`, `Upsert(4096, "c", "/z/proj", "1")`
(a reachable state), the collision branch re-keys the third backend to
`proj-4096`, silently overwriting the second one: ports 4097 and 4096 then
both map to slug `proj-4096` in `by_port`, violating I2 (injectivity) and
I3 (each slug has exactly one owning port). -/
theorem upsert_collision_breaks_invariants :
    Reach regStC ∧
    lookupA regStC.byPort 4097 = some "proj-4096" ∧
    lookupA regStC.byPort 4096 = some "proj-4096" ∧
    (4097 : Int) ≠ 4096 :=
  ⟨reach_regStD.2, by decide, by decide, by decide⟩

/-- C10: a reachable registry state in which `by_port` holds a slug that is
absent from `by_slug`: extending the C1 trace with
`Upsert(4097, "d", "/w/other", "1")` deletes backend `proj-4096` (project
change on port 4097) while `by_port[4096]` still names it.  On this state
Go's `LookupByPort(4096)` reads `backends["proj-4096"]`, obtaining nil, and
dereferences it — `LookupByPort` is not total. -/
theorem lookupByPort_dangling_slug :
    Reach regStD ∧
    lookupA regStD.byPort 4096 = some "proj-4096" ∧
    lookupA regStD.backends "proj-4096" = none :=
  ⟨reach_regStD.1, by decide, by decide⟩

/-- C3: port reassignment.  From the empty registry,
`Upsert(4096, "proj", "/h/a/proj", "1")` then
`Upsert(4097, "proj", "/h/a/proj", "1")` leaves exactly one backend, on
port 4097; `LookupByPort(4096)` misses and `LookupByPort(4097)` returns the
backend with slug `proj`. -/
theorem upsert_port_reassignment :
    (upsert (upsert emptyReg 1 4096 "proj" "/h/a/proj" "1").1 2 4097 "proj" "/h/a/proj" "1").1.backends.map
        (fun p => (p.1, p.2.port)) = [("proj", (4097 : Int))] ∧
    lookupByPort (upsert (upsert emptyReg 1 4096 "proj" "/h/a/proj" "1").1 2 4097 "proj" "/h/a/proj" "1").1 4096 = none ∧
    Option.map Backend.slug
      (lookupByPort (upsert (upsert emptyReg 1 4096 "proj" "/h/a/proj" "1").1 2 4097 "proj" "/h/a/proj" "1").1 4097) =
      some "proj" := by
  refine ⟨by decide, by decide, by decide⟩

theorem slug_append_port_ne (slug : String) (port : Int) :
    slug ++ "-" ++ intDec port ≠ slug := by
  intro h
  have hlen := congrArg String.length h
  have h1 : ("-" : String).length = 1 := rfl
  simp only [String.length_append, h1] at hlen
  omega

/-- C2: a true slug collision.  Whenever `by_slug` already holds an entry
under `slug = Slugify(path)` whose project path and port both differ from
the arguments, `Upsert(port, name, path, version)` inserts a fresh backend
keyed and slug-labelled `Slugify(path) ++ "-" ++ port`, points
`by_port[port]` at that key, returns new (`true`), and leaves the existing
entry under `Slugify(path)` untouched. -/
theorem upsert_true_collision (st : RegState) (now : Nat) (port : Int)
    (name path version : String) (ex : Backend)
    (hex : lookupA st.backends (Slugify path) = some ex)
    (hpath : ex.projectPath ≠ path) (hport : ex.port ≠ port) :
    (upsert st now port name path version).2 = true ∧
    lookupA (upsert st now port name path version).1.backends
        (Slugify path ++ "-" ++ intDec port) =
      some ⟨port, name, path, Slugify path ++ "-" ++ intDec port, version, now⟩ ∧
    lookupA (upsert st now port name path version).1.byPort port =
      some (Slugify path ++ "-" ++ intDec port) ∧
    lookupA (upsert st now port name path version).1.backends (Slugify path) = some ex := by
  have hcond : ¬ (ex.projectPath = path ∨ ex.port = port) := by
    push_neg
    exact ⟨hpath, hport⟩
  have hne := slug_append_port_ne (Slugify path) port
  cases hbp : lookupA st.byPort port with
  | none =>
    simp only [upsert, hbp, hex, if_neg hcond]
    refine ⟨trivial, lookupA_insertA_self _ _ _, lookupA_insertA_self _ _ _,
      (lookupA_insertA_ne _ _ _ _ hne).trans hex⟩
  | some oldSlug =>
    by_cases holdeq : oldSlug = Slugify path
    · subst holdeq
      simp only [upsert, hbp]
      rw [if_neg (show ¬ (Slugify path ≠ Slugify path) by simp)]
      simp only [hex, if_neg hcond]
      refine ⟨trivial, lookupA_insertA_self _ _ _, lookupA_insertA_self _ _ _,
        (lookupA_insertA_ne _ _ _ _ hne).trans hex⟩
    · have hex' : lookupA (eraseA st.backends oldSlug) (Slugify path) = some ex :=
        (lookupA_eraseA_ne _ _ _ holdeq).trans hex
      simp only [upsert, hbp]
      rw [if_pos (show oldSlug ≠ Slugify path from holdeq)]
      simp only [hex', if_neg hcond]
      refine ⟨trivial, lookupA_insertA_self _ _ _, lookupA_insertA_self _ _ _,
        (lookupA_insertA_ne _ _ _ _ hne).trans hex'⟩

/-- Witness for `upsert_true_collision` at the concrete state holding
`proj` from `/x/proj` on port 5000, upserting `/z/proj` on port 4096. -/
theorem upsert_true_collision_witness :
    (lookupA regStA.backends (Slugify "/z/proj") =
        some ⟨5000, "a", "/x/proj", "proj", "1", 1⟩ ∧
      (⟨5000, "a", "/x/proj", "proj", "1", 1⟩ : Backend).projectPath ≠ "/z/proj" ∧
      (⟨5000, "a", "/x/proj", "proj", "1", 1⟩ : Backend).port ≠ (4096 : Int)) ∧
    ((upsert regStA 3 4096 "c" "/z/proj" "1").2 = true ∧
      lookupA (upsert regStA 3 4096 "c" "/z/proj" "1").1.backends
          (Slugify "/z/proj" ++ "-" ++ intDec 4096) =
        some ⟨4096, "c", "/z/proj", Slugify "/z/proj" ++ "-" ++ intDec 4096, "1", 3⟩ ∧
      lookupA (upsert regStA 3 4096 "c" "/z/proj" "1").1.byPort 4096 =
        some (Slugify "/z/proj" ++ "-" ++ intDec 4096) ∧
      lookupA (upsert regStA 3 4096 "c" "/z/proj" "1").1.backends (Slugify "/z/proj") =
        some ⟨5000, "a", "/x/proj", "proj", "1", 1⟩) :=
  ⟨⟨by decide, by decide, by decide⟩,
    upsert_true_collision regStA 3 4096 "c" "/z/proj" "1" _ (by decide) (by decide) (by decide)⟩

theorem lookupA_eq_none_of_not_mem_keys {α β : Type} [DecidableEq α]
    (l : List (α × β)) (k : α) (h : k ∉ l.map Prod.fst) : lookupA l k = none := by
  induction l with
  | nil => rfl
  | cons hd tl ih =>
    obtain ⟨k₀, v₀⟩ := hd
    simp only [List.map_cons, List.mem_cons] at h
    push_neg at h
    simp [lookupA, Ne.symm h.1, ih h.2]

theorem lookupA_mem {α β : Type} [DecidableEq α]
    (l : List (α × β)) (k : α) (v : β) (h : lookupA l k = some v) : (k, v) ∈ l := by
  induction l with
  | nil => simp [lookupA] at h
  | cons hd tl ih =>
    obtain ⟨k₀, v₀⟩ := hd
    by_cases h₀ : k₀ = k
    · subst h₀
      simp [lookupA] at h
      simp [h]
    · simp [lookupA, h₀] at h
      simp [ih h]

theorem mem_lookupA {α β : Type} [DecidableEq α]
    (l : List (α × β)) (k : α) (v : β) (hnd : (l.map Prod.fst).Nodup)
    (h : (k, v) ∈ l) : lookupA l k = some v := by
  induction l with
  | nil => simp at h
  | cons hd tl ih =>
    obtain ⟨k₀, v₀⟩ := hd
    simp only [List.map_cons, List.nodup_cons] at hnd
    rcases List.mem_cons.mp h with h' | h'
    · obtain ⟨hk, hv⟩ := Prod.ext_iff.mp h'
      simp only at hk hv
      subst hk
      subst hv
      simp [lookupA]
    · have hk : k₀ ≠ k := by
        intro hkk
        exact hnd.1 (hkk ▸ List.mem_map_of_mem Prod.fst h')
      simp [lookupA, hk, ih hnd.2 h']

theorem lookupA_filter {α β : Type} [DecidableEq α]
    (l : List (α × β)) (P : α × β → Bool) (k : α)
    (hnd : (l.map Prod.fst).Nodup) :
    lookupA (l.filter P) k =
      match lookupA l k with
      | some v => if P (k, v) then some v else none
      | none => none := by
  induction l with
  | nil => rfl
  | cons hd tl ih =>
    obtain ⟨k₀, v₀⟩ := hd
    simp only [List.map_cons, List.nodup_cons] at hnd
    by_cases h₀ : k₀ = k
    · subst h₀
      have hnone : lookupA (tl.filter P) k₀ = none := by
        apply lookupA_eq_none_of_not_mem_keys
        intro hmem
        rcases List.mem_map.mp hmem with ⟨p, hp, hfst⟩
        exact hnd.1 (hfst ▸ List.mem_map_of_mem Prod.fst (List.mem_of_mem_filter hp))
      by_cases hP : P (k₀, v₀) = true
      · simp [List.filter, lookupA, hP]
      · simp only [Bool.not_eq_true] at hP
        simp [List.filter, lookupA, hP, hnone]
    · by_cases hP : P (k₀, v₀) = true
      · simp [List.filter, lookupA, hP, h₀, ih hnd.2]
      · simp only [Bool.not_eq_true] at hP
        simp [List.filter, lookupA, hP, h₀, ih hnd.2]

theorem lookupA_filter_none {α β : Type} [DecidableEq α]
    (l : List (α × β)) (P : α × β → Bool) (k : α)
    (h : ∀ v, P (k, v) = false) : lookupA (l.filter P) k = none := by
  induction l with
  | nil => rfl
  | cons hd tl ih =>
    obtain ⟨k₀, v₀⟩ := hd
    by_cases h₀ : k₀ = k
    · subst h₀
      simp [List.filter, h v₀, ih]
    · by_cases hP : P (k₀, v₀) = true
      · simp [List.filter, lookupA, hP, h₀, ih]
      · simp only [Bool.not_eq_true] at hP
        simp [List.filter, hP, ih]

/-- C4: `Prune` removes exactly the backends with
`now - last_seen > stale_after` — each disappears from `by_slug` and its
port from `by_port` — returns exactly the removed slugs, and afterwards no
stale backend remains (I5).  Stated for every registry state whose `by_slug`
keys are distinct (every Go map satisfies this). -/
theorem prune_spec (st : RegState) (now staleAfter : Nat)
    (hnd : (st.backends.map Prod.fst).Nodup) :
    (∀ s, lookupA (prune st now staleAfter).1.backends s =
        match lookupA st.backends s with
        | some b => if isStale now staleAfter b then none else some b
        | none => none) ∧
    (∀ s, s ∈ (prune st now staleAfter).2 ↔
        ∃ b, lookupA st.backends s = some b ∧ isStale now staleAfter b = true) ∧
    (∀ s b, lookupA st.backends s = some b → isStale now staleAfter b = true →
        lookupA (prune st now staleAfter).1.byPort b.port = none) ∧
    (∀ p ∈ (prune st now staleAfter).1.backends, isStale now staleAfter p.2 = false) := by
  refine ⟨?_, ?_, ?_, ?_⟩
  · intro s
    have := lookupA_filter st.backends (fun p => !(isStale now staleAfter p.2)) s hnd
    simp only [prune, this]
    cases lookupA st.backends s with
    | none => rfl
    | some b =>
      by_cases hb : isStale now staleAfter b = true
      · simp [hb]
      · simp only [Bool.not_eq_true] at hb
        simp [hb]
  · intro s
    constructor
    · intro hs
      simp only [prune, List.mem_map] at hs
      rcases hs with ⟨p, hp, hfst⟩
      have hmem := List.mem_of_mem_filter hp
      have hstale := List.of_mem_filter hp
      exact ⟨p.2, hfst ▸ mem_lookupA _ _ _ hnd (by simpa using hmem), hstale⟩
    · rintro ⟨b, hb, hstale⟩
      have hmem := lookupA_mem _ _ _ hb
      simp only [prune, List.mem_map]
      exact ⟨(s, b), List.mem_filter.mpr ⟨hmem, hstale⟩, rfl⟩
  · intro s b hb hstale
    have hmem : (s, b) ∈ st.backends.filter (fun p => isStale now staleAfter p.2) :=
      List.mem_filter.mpr ⟨lookupA_mem _ _ _ hb, hstale⟩
    apply lookupA_filter_none
    intro v
    have hany : (st.backends.filter (fun p => isStale now staleAfter p.2)).any
        (fun p => p.2.port == b.port) = true :=
      List.any_eq_true.mpr ⟨(s, b), hmem, by simp⟩
    simp [hany]
  · intro p hp
    simp only [prune] at hp
    have := List.of_mem_filter hp
    simpa using this

/-- Witness for `prune_spec` on a registry holding one fresh and one stale
backend. -/
theorem prune_spec_witness :
    ((([("fresh", (⟨1, "f", "/f", "fresh", "1", 95⟩ : Backend)),
        ("stale", (⟨2, "s", "/s", "stale", "1", 0⟩ : Backend))]).map Prod.fst).Nodup) ∧
    (∀ s, lookupA (prune ⟨[("fresh", ⟨1, "f", "/f", "fresh", "1", 95⟩),
          ("stale", ⟨2, "s", "/s", "stale", "1", 0⟩)], [(1, "fresh"), (2, "stale")]⟩ 100 10).1.backends s =
        match lookupA (⟨[("fresh", ⟨1, "f", "/f", "fresh", "1", 95⟩),
          ("stale", ⟨2, "s", "/s", "stale", "1", 0⟩)], [(1, "fresh"), (2, "stale")]⟩ : RegState).backends s with
        | some b => if isStale 100 10 b then none else some b
        | none => none) ∧
    (∀ s, s ∈ (prune ⟨[("fresh", ⟨1, "f", "/f", "fresh", "1", 95⟩),
          ("stale", ⟨2, "s", "/s", "stale", "1", 0⟩)], [(1, "fresh"), (2, "stale")]⟩ 100 10).2 ↔
        ∃ b, lookupA (⟨[("fresh", ⟨1, "f", "/f", "fresh", "1", 95⟩),
          ("stale", ⟨2, "s", "/s", "stale", "1", 0⟩)], [(1, "fresh"), (2, "stale")]⟩ : RegState).backends s = some b ∧
          isStale 100 10 b = true) ∧
    (∀ s b, lookupA (⟨[("fresh", ⟨1, "f", "/f", "fresh", "1", 95⟩),
          ("stale", ⟨2, "s", "/s", "stale", "1", 0⟩)], [(1, "fresh"), (2, "stale")]⟩ : RegState).backends s = some b →
        isStale 100 10 b = true →
        lookupA (prune ⟨[("fresh", ⟨1, "f", "/f", "fresh", "1", 95⟩),
          ("stale", ⟨2, "s", "/s", "stale", "1", 0⟩)], [(1, "fresh"), (2, "stale")]⟩ 100 10).1.byPort b.port = none) ∧
    (∀ p ∈ (prune ⟨[("fresh", ⟨1, "f", "/f", "fresh", "1", 95⟩),
          ("stale", ⟨2, "s", "/s", "stale", "1", 0⟩)], [(1, "fresh"), (2, "stale")]⟩ 100 10).1.backends,
        isStale 100 10 p.2 = false) :=
  ⟨by decide,
    prune_spec ⟨[("fresh", ⟨1, "f", "/f", "fresh", "1", 95⟩),
      ("stale", ⟨2, "s", "/s", "stale", "1", 0⟩)], [(1, "fresh"), (2, "stale")]⟩ 100 10 (by decide)⟩

/-! ## Shape and idempotence of `Slugify` -/

/-- No two consecutive hyphens. -/
def noDouble : List Char → Bool
  | [] => true
  | [_] => true
  | a :: b :: rest => !(a == '-' && b == '-') && noDouble (b :: rest)

theorem isAllowedChar_replaceChar (c : Char) : isAllowedChar (replaceChar c) = true := by
  unfold replaceChar
  by_cases h : isAllowedChar c = true
  · simp [h]
  · simp only [Bool.not_eq_true] at h
    simp [h]
    decide

theorem mem_collapseHyphens (l : List Char) (c : Char) (h : c ∈ collapseHyphens l) :
    c ∈ l := by
  induction l with
  | nil => simp [collapseHyphens] at h
  | cons a tl ih =>
    cases tl with
    | nil => simpa [collapseHyphens] using h
    | cons b rest =>
      by_cases hab : a = '-' ∧ b = '-'
      · simp only [collapseHyphens, if_pos hab] at h
        exact List.mem_cons_of_mem a (ih h)
      · simp only [collapseHyphens, if_neg hab, List.mem_cons] at h
        rcases h with h | h
        · simp [h]
        · exact List.mem_cons_of_mem a (ih h)

theorem collapseHyphens_head? (l : List Char) :
    (collapseHyphens l).head? = l.head? := by
  induction l with
  | nil => rfl
  | cons a tl ih =>
    cases tl with
    | nil => rfl
    | cons b rest =>
      by_cases hab : a = '-' ∧ b = '-'
      · simp only [collapseHyphens, if_pos hab, ih]
        simp [hab.1, hab.2]
      · simp [collapseHyphens, if_neg hab]

theorem noDouble_collapseHyphens (l : List Char) :
    noDouble (collapseHyphens l) = true := by
  induction l with
  | nil => rfl
  | cons a tl ih =>
    cases tl with
    | nil => rfl
    | cons b rest =>
      by_cases hab : a = '-' ∧ b = '-'
      · simpa [collapseHyphens, if_pos hab] using ih
      · have hhd : (collapseHyphens (b :: rest)).head? = some b := by
          simp [collapseHyphens_head?]
        cases hc : collapseHyphens (b :: rest) with
        | nil => simp [hc] at hhd
        | cons b' tl' =>
          have hb : b' = b := by
            rw [hc] at hhd
            simpa using hhd
          subst hb
          have hnd : noDouble (b' :: tl') = true := hc ▸ ih
          simp only [collapseHyphens, if_neg hab, hc, noDouble, Bool.and_eq_true,
            Bool.not_eq_true', hnd, and_true]
          by_cases ha : a = '-'
          · have hbne : ¬ b' = '-' := fun hb2 => hab ⟨ha, hb2⟩
            simp [ha, hbne]
          · simp [ha]

theorem noDouble_cons (c : Char) (l : List Char) (h : noDouble (c :: l) = true) :
    noDouble l = true := by
  cases l with
  | nil => rfl
  | cons b rest =>
    simp only [noDouble, Bool.and_eq_true] at h
    exact h.2

theorem noDouble_append_left (l t : List Char) (h : noDouble (l ++ t) = true) :
    noDouble l = true := by
  induction l with
  | nil => rfl
  | cons a tl ih =>
    cases tl with
    | nil => rfl
    | cons b rest =>
      simp only [List.cons_append, noDouble, Bool.and_eq_true] at h ⊢
      refine ⟨h.1, ?_⟩
      have := ih (by simpa [List.cons_append] using h.2)
      exact this

theorem noDouble_append_right (t l : List Char) (h : noDouble (t ++ l) = true) :
    noDouble l = true := by
  induction t with
  | nil => simpa using h
  | cons a tl ih =>
    exact ih (noDouble_cons a (tl ++ l) (by simpa using h))

theorem dropTrailing_append (p : Char → Bool) (l : List Char) :
    ∃ t, dropTrailing p l ++ t = l := by
  induction l with
  | nil => exact ⟨[], rfl⟩
  | cons c cs ih =>
    rcases ih with ⟨t, ht⟩
    cases hr : dropTrailing p cs with
    | nil =>
      by_cases hp : p c = true
      · exact ⟨c :: cs, by simp [dropTrailing, hr, hp]⟩
      · refine ⟨cs, ?_⟩
        simp only [Bool.not_eq_true] at hp
        simp [dropTrailing, hr, hp]
    | cons d ds =>
      refine ⟨t, ?_⟩
      rw [hr] at ht
      simp [dropTrailing, hr, ht]

theorem mem_dropTrailing (p : Char → Bool) (l : List Char) (c : Char)
    (h : c ∈ dropTrailing p l) : c ∈ l := by
  rcases dropTrailing_append p l with ⟨t, ht⟩
  rw [← ht]
  exact List.mem_append_left t h

theorem head?_dropTrailing (p : Char → Bool) (l : List Char)
    (h : dropTrailing p l ≠ []) : (dropTrailing p l).head? = l.head? := by
  rcases dropTrailing_append p l with ⟨t, ht⟩
  cases hr : dropTrailing p l with
  | nil => exact absurd hr h
  | cons d ds =>
    rw [hr] at ht
    rw [← ht]
    simp

theorem getLast?_dropTrailing (p : Char → Bool) (l : List Char) (c : Char)
    (h : (dropTrailing p l).getLast? = some c) : p c = false := by
  induction l with
  | nil => simp [dropTrailing] at h
  | cons d ds ih =>
    cases hr : dropTrailing p ds with
    | nil =>
      by_cases hp : p d = true
      · simp [dropTrailing, hr, hp] at h
      · simp only [Bool.not_eq_true] at hp
        have hcond : ¬ (p d = true) := by simp [hp]
        simp only [dropTrailing, hr, if_neg hcond] at h
        simp at h
        exact h ▸ hp
    | cons e es =>
      simp only [dropTrailing, hr] at h
      rw [List.getLast?_cons_cons] at h
      exact ih (hr ▸ h)

theorem head?_dropWhile (p : Char → Bool) (l : List Char) (c : Char)
    (h : (l.dropWhile p).head? = some c) : p c = false := by
  induction l with
  | nil => simp [List.dropWhile] at h
  | cons d ds ih =>
    by_cases hp : p d = true
    · simp only [List.dropWhile, hp] at h
      exact ih h
    · simp only [Bool.not_eq_true] at hp
      simp only [List.dropWhile, hp] at h
      simp only [List.head?_cons, Option.some.injEq] at h
      exact h ▸ hp

theorem dropWhile_append (p : Char → Bool) (l : List Char) :
    ∃ t, t ++ l.dropWhile p = l := by
  induction l with
  | nil => exact ⟨[], rfl⟩
  | cons d ds ih =>
    by_cases hp : p d = true
    · rcases ih with ⟨t, ht⟩
      exact ⟨d :: t, by simp [List.dropWhile, hp, ht]⟩
    · simp only [Bool.not_eq_true] at hp
      exact ⟨[], by simp [List.dropWhile, hp]⟩

theorem mem_dropWhile (p : Char → Bool) (l : List Char) (c : Char)
    (h : c ∈ l.dropWhile p) : c ∈ l := by
  rcases dropWhile_append p l with ⟨t, ht⟩
  rw [← ht]
  exact List.mem_append_right t h

/-- The shape every `Slugify` result has: nonempty, alphabet `[a-z0-9-]`,
no hyphen at either end, no `--`. -/
def slugShape (l : List Char) : Prop :=
  l ≠ [] ∧ (∀ c ∈ l, isAllowedChar c = true) ∧ l.head? ≠ some '-' ∧
  l.getLast? ≠ some '-' ∧ noDouble l = true

theorem slugShape_default : slugShape ['d', 'e', 'f', 'a', 'u', 'l', 't'] :=
  ⟨by decide, by decide, by decide, by decide, by decide⟩

theorem slugShape_slugifyL (l : List Char) : slugShape (slugifyL l) := by
  unfold slugifyL
  set X := collapseHyphens (((basenameL l).map lowerChar).map replaceChar) with hX
  set m := trimHyphens X with hm
  by_cases hnil : m = []
  · simp only [hnil, if_pos rfl]
    exact slugShape_default
  · simp only [if_neg hnil]
    have hmem : ∀ c ∈ m, isAllowedChar c = true := by
      intro c hc
      have h1 : c ∈ X.dropWhile (fun x => x = '-') := mem_dropTrailing _ _ _ hc
      have h2 : c ∈ X := mem_dropWhile _ _ _ h1
      have h3 := mem_collapseHyphens _ _ h2
      rcases List.mem_map.mp h3 with ⟨c', _, hc'⟩
      exact hc' ▸ isAllowedChar_replaceChar c'
    refine ⟨hnil, hmem, ?_, ?_, ?_⟩
    · intro hhd
      have := head?_dropTrailing (fun x => x = '-') (X.dropWhile (fun x => x = '-')) hnil
      rw [hm] at hhd
      unfold trimHyphens at hhd
      rw [this] at hhd
      have := head?_dropWhile _ _ _ hhd
      simp at this
    · intro hlast
      rw [hm] at hlast
      unfold trimHyphens at hlast
      have := getLast?_dropTrailing _ _ _ hlast
      simp at this
    · have hX1 : noDouble X = true := noDouble_collapseHyphens _
      rcases dropWhile_append (fun x => x = '-') X with ⟨t, ht⟩
      have hX2 : noDouble (X.dropWhile (fun x => x = '-')) = true :=
        noDouble_append_right t _ (by rw [ht]; exact hX1)
      rcases dropTrailing_append (fun x => x = '-') (X.dropWhile (fun x => x = '-')) with ⟨t', ht'⟩
      exact noDouble_append_left _ t' (by rw [hm]; unfold trimHyphens; rw [ht']; exact hX2)

theorem mem_of_getLast? (l : List Char) (c : Char) (h : l.getLast? = some c) :
    c ∈ l := by
  induction l with
  | nil => simp at h
  | cons d ds ih =>
    cases ds with
    | nil =>
      simp at h
      simp [h]
    | cons e es =>
      rw [List.getLast?_cons_cons] at h
      exact List.mem_cons_of_mem d (ih h)

theorem takeWhile_all (p : Char → Bool) (l : List Char)
    (h : ∀ c ∈ l, p c = true) : l.takeWhile p = l := by
  induction l with
  | nil => rfl
  | cons d ds ih =>
    have h1 : p d = true := h d (List.mem_cons_self d ds)
    have h2 := ih (fun c hc => h c (List.mem_cons_of_mem d hc))
    simp [List.takeWhile_cons, h1, h2]

theorem dropWhile_eq_self (p : Char → Bool) (l : List Char)
    (h : ∀ c, l.head? = some c → p c = false) : l.dropWhile p = l := by
  cases l with
  | nil => rfl
  | cons d ds => simp [List.dropWhile_cons, h d rfl]

theorem dropTrailing_cons (p : Char → Bool) (c : Char) (cs : List Char) :
    dropTrailing p (c :: cs) =
      match dropTrailing p cs with
      | [] => if p c then [] else [c]
      | r => c :: r := rfl

theorem dropTrailing_eq_self (p : Char → Bool) (l : List Char)
    (h : ∀ c, l.getLast? = some c → p c = false) : dropTrailing p l = l := by
  induction l with
  | nil => rfl
  | cons d ds ih =>
    cases hds : ds with
    | nil =>
      have := h d (by simp [hds])
      simp [dropTrailing, this]
    | cons e es =>
      have hih : dropTrailing p ds = ds := by
        apply ih
        intro c hc
        apply h
        rw [hds] at hc ⊢
        rw [List.getLast?_cons_cons]
        exact hc
      rw [hds] at hih
      rw [dropTrailing_cons, hih]

theorem collapseHyphens_eq_self (l : List Char) (h : noDouble l = true) :
    collapseHyphens l = l := by
  induction l with
  | nil => rfl
  | cons a tl ih =>
    cases tl with
    | nil => rfl
    | cons b rest =>
      simp only [noDouble, Bool.and_eq_true, Bool.not_eq_true',
        Bool.and_eq_false_iff] at h
      have hcond : ¬ (a = '-' ∧ b = '-') := by
        rintro ⟨ha, hb⟩
        rcases h.1 with h' | h' <;> simp [ha, hb] at h'
      simp only [collapseHyphens, if_neg hcond]
      rw [ih h.2]

theorem map_eq_self {f : Char → Char} (l : List Char)
    (h : ∀ c ∈ l, f c = c) : l.map f = l := by
  induction l with
  | nil => rfl
  | cons d ds ih =>
    simp only [List.map_cons, h d (List.mem_cons_self d ds),
      ih (fun c hc => h c (List.mem_cons_of_mem d hc))]

theorem lowerChar_eq_self (c : Char) (h : isAllowedChar c = true) :
    lowerChar c = c := by
  simp only [isAllowedChar, decide_eq_true_eq] at h
  unfold lowerChar
  rw [if_neg]
  rintro ⟨h1, h2⟩
  rcases h with h' | h' | h' <;> omega

theorem replaceChar_eq_self (c : Char) (h : isAllowedChar c = true) :
    replaceChar c = c := by
  simp [replaceChar, h]

theorem allowed_ne_slash (c : Char) (h : isAllowedChar c = true) : c ≠ '/' := by
  simp only [isAllowedChar, decide_eq_true_eq] at h
  intro hc
  subst hc
  rcases h with h' | h' | h' <;> simp at h'

theorem basenameL_eq_self (l : List Char) (hne : l ≠ [])
    (hall : ∀ c ∈ l, isAllowedChar c = true) : basenameL l = l := by
  have hd : dropTrailing (fun c => c = '/') l = l := by
    apply dropTrailing_eq_self
    intro c hc
    have := allowed_ne_slash c (hall c (mem_of_getLast? l c hc))
    simp [this]
  have ha : afterLastSlash l = l := by
    unfold afterLastSlash
    rw [takeWhile_all _ _ (fun c hc => by
      have := allowed_ne_slash c (hall c (List.mem_reverse.mp hc))
      simp [this])]
    exact List.reverse_reverse l
  unfold basenameL
  rw [if_neg hne]
  simp only [hd, ha]
  rw [if_neg hne, if_neg hne]

theorem slugifyL_eq_self (l : List Char) (hsh : slugShape l) : slugifyL l = l := by
  obtain ⟨hne, hall, hhd, hlast, hnd⟩ := hsh
  unfold slugifyL
  rw [basenameL_eq_self l hne hall]
  rw [map_eq_self l (fun c hc => lowerChar_eq_self c (hall c hc))]
  rw [map_eq_self l (fun c hc => replaceChar_eq_self c (hall c hc))]
  rw [collapseHyphens_eq_self l hnd]
  unfold trimHyphens
  rw [dropWhile_eq_self _ l (fun c hc => by
    have : c ≠ '-' := fun h => hhd (h ▸ hc)
    simp [this])]
  rw [dropTrailing_eq_self _ l (fun c hc => by
    have : c ≠ '-' := fun h => hlast (h ▸ hc)
    simp [this])]
  rw [if_neg hne]

/-- C5: `Slugify` is idempotent and its output is nonempty, uses only the
alphabet `[a-z0-9-]`, begins and ends with a non-hyphen, and contains no
`--`. -/
theorem slugify_idempotent_and_shape (x : String) :
    Slugify (Slugify x) = Slugify x ∧
    (∀ c ∈ (Slugify x).data, isAllowedChar c = true) ∧
    (Slugify x).data.head? ≠ some '-' ∧
    (Slugify x).data.getLast? ≠ some '-' ∧
    noDouble (Slugify x).data = true ∧
    Slugify x ≠ "" := by
  obtain ⟨hne, hall, hhd, hlast, hnd⟩ := slugShape_slugifyL x.data
  refine ⟨?_, hall, hhd, hlast, hnd, ?_⟩
  · show String.mk (slugifyL (slugifyL x.data)) = String.mk (slugifyL x.data)
    rw [slugifyL_eq_self _ ⟨hne, hall, hhd, hlast, hnd⟩]
  · intro hempty
    apply hne
    have : (Slugify x).data = ("" : String).data := by rw [hempty]
    simpa using this

/-! ## The router (internal/proxy, file part_006) -/

/-- Go `strings.LastIndex(host, ":")` followed by `host[:idx]` (the
whole list when there is no colon). -/
def beforeLastColon (l : List Char) : List Char :=
  match l.reverse.dropWhile (fun c => c ≠ ':') with
  | [] => l
  | _ :: pre => pre.reverse

/-- `slugFromHost` from part_006: strip `:port`, require and strip the
`.local` suffix, require and strip the `-username` suffix; empty result
means no match (the source's final empty-check returns the same value). -/
def slugFromHost (username host : String) : String :=
  let hostname := beforeLastColon host.data
  if (".local" : String).data.isSuffixOf hostname then
    let h1 := hostname.take (hostname.length - 6)
    let sfx := ("-" ++ username).data
    if sfx.isSuffixOf h1 then
      String.mk (h1.take (h1.length - sfx.length))
    else ""
  else ""

/-- `strings.SplitN(trimmed, "/", 2)`: the part before the first slash and,
when a slash exists, the part after it. -/
def splitOnceSlash : List Char → List Char × Option (List Char)
  | [] => ([], none)
  | c :: cs =>
    if c = '/' then ([], some cs)
    else
      let r := splitOnceSlash cs
      (c :: r.1, r.2)

/-- `slugFromPath` from part_006: trim the leading slash; empty means no
match; otherwise split once on `/`, re-prepending `/` to the remainder
(`/` itself when there was no second segment). -/
def slugFromPath (path : String) : String × String :=
  let trimmed :=
    match path.data with
    | '/' :: rest => rest
    | l => l
  if trimmed = [] then ("", "")
  else
    let r := splitOnceSlash trimmed
    (String.mk r.1,
      match r.2 with
      | some rest => String.mk ('/' :: rest)
      | none => "/")

/-- How `ServeHTTP` classifies a request, with the outbound URL path the
reverse proxy would use on a proxied request. -/
inductive Routed
  | proxy (b : Backend) (outPath : String)
  | apiBackends
  | apiHealth
  | apiResolve
  | dashboard
deriving DecidableEq, Repr

/-- `proxyTo`'s path rewrite: an empty `pathOverride` leaves the request
path untouched, otherwise it replaces it. -/
def proxyOutPath (reqPath pathOverride : String) : String :=
  if pathOverride = "" then reqPath else pathOverride

/-- `Router.ServeHTTP` from part_006: host-based proxy, then path-based
proxy, then the exact-path control API, then the dashboard. -/
def serveHTTP (st : RegState) (username host path : String) : Routed :=
  match (
    let hs := slugFromHost username host
    if hs = "" then none else lookupA st.backends hs : Option Backend) with
  | some b => Routed.proxy b (proxyOutPath path "")
  | none =>
    let pr := slugFromPath path
    match (if pr.1 = "" then none else lookupA st.backends pr.1 : Option Backend) with
    | some b => Routed.proxy b (proxyOutPath path pr.2)
    | none =>
      if path = "/api/backends" then Routed.apiBackends
      else if path = "/api/health" then Routed.apiHealth
      else if path = "/api/resolve" then Routed.apiResolve
      else Routed.dashboard

/-- The request's host does not select a backend (host-based routing falls
through). -/
def hostMiss (st : RegState) (username host : String) : Prop :=
  slugFromHost username host = "" ∨
    lookupA st.backends (slugFromHost username host) = none

/-! ## Every registered slug is nonempty and slash-free -/

theorem digitChar10_ne_slash (n : Nat) : digitChar10 n ≠ '/' := by
  unfold digitChar10
  split <;> decide

theorem natDecAux_ne_slash (fuel n : Nat) (c : Char) (h : c ∈ natDecAux fuel n) :
    c ≠ '/' := by
  induction fuel generalizing n with
  | zero => simp [natDecAux] at h
  | succ fuel ih =>
    by_cases hn : n < 10
    · simp only [natDecAux, if_pos hn, List.mem_singleton] at h
      exact h ▸ digitChar10_ne_slash n
    · simp only [natDecAux, if_neg hn, List.mem_append, List.mem_singleton] at h
      rcases h with h | h
      · exact ih (n / 10) h
      · exact h ▸ digitChar10_ne_slash (n % 10)

theorem intDec_ne_slash (i : Int) (c : Char) (h : c ∈ (intDec i).data) : c ≠ '/' := by
  unfold intDec at h
  by_cases hi : i < 0
  · simp only [if_pos hi] at h
    rcases List.mem_cons.mp h with h' | h'
    · subst h'
      decide
    · exact natDecAux_ne_slash _ _ _ h'
  · simp only [if_neg hi] at h
    exact natDecAux_ne_slash _ _ _ h

/-- Keys the registry can hold: nonempty, slash-free strings. -/
def slugOk (s : String) : Prop :=
  s ≠ "" ∧ ∀ c ∈ s.data, c ≠ '/'

theorem slugOk_slugify (path : String) : slugOk (Slugify path) := by
  obtain ⟨_, hall, _, _, _, hne⟩ := slugify_idempotent_and_shape path
  exact ⟨hne, fun c hc => allowed_ne_slash c (hall c hc)⟩

theorem slugOk_slugify_port (path : String) (port : Int) :
    slugOk (Slugify path ++ "-" ++ intDec port) := by
  obtain ⟨hne, hslash⟩ := slugOk_slugify path
  constructor
  · intro h
    have := congrArg String.length h
    have h1 : ("-" : String).length = 1 := rfl
    simp only [String.length_append, h1, String.length_empty] at this
    omega
  · intro c hc
    rw [String.data_append, String.data_append] at hc
    rcases List.mem_append.mp hc with hc' | hc'
    · rcases List.mem_append.mp hc' with hc'' | hc''
      · exact hslash c hc''
      · rcases List.mem_singleton.mp hc'' with rfl
        decide
    · exact intDec_ne_slash port c hc'

theorem mem_upsert_backends (st : RegState) (now : Nat) (port : Int)
    (n pth v : String) (p : String × Backend)
    (hp : p ∈ (upsert st now port n pth v).1.backends) :
    p ∈ st.backends ∨ p.1 = Slugify pth ∨ p.1 = Slugify pth ++ "-" ++ intDec port := by
  simp only [upsert] at hp
  have hbase : ∀ q : String × Backend, q ∈ (
      match lookupA st.byPort port with
      | some oldSlug =>
        if oldSlug ≠ Slugify pth then eraseA st.backends oldSlug else st.backends
      | none => st.backends) → q ∈ st.backends := by
    intro q hq
    rcases hlk : lookupA st.byPort port with _ | oldSlug
    · rw [hlk] at hq
      exact hq
    · rw [hlk] at hq
      have hq' : q ∈ (if oldSlug ≠ Slugify pth
          then eraseA st.backends oldSlug else st.backends) := hq
      by_cases ho : oldSlug ≠ Slugify pth
      · rw [if_pos ho] at hq'
        exact mem_eraseA _ _ _ hq'
      · rw [if_neg ho] at hq'
        exact hq'
  rcases hlk2 : lookupA (
      match lookupA st.byPort port with
      | some oldSlug =>
        if oldSlug ≠ Slugify pth then eraseA st.backends oldSlug else st.backends
      | none => st.backends) (Slugify pth) with _ | existing
  · rw [hlk2] at hp
    rcases mem_insertA _ _ _ _ hp with h | h
    · exact Or.inl (hbase p h)
    · exact Or.inr (Or.inl (by rw [h]))
  · rw [hlk2] at hp
    by_cases hcond : existing.projectPath = pth ∨ existing.port = port
    · simp only [if_pos hcond] at hp
      rcases mem_insertA _ _ _ _ hp with h | h
      · exact Or.inl (hbase p h)
      · exact Or.inr (Or.inl (by rw [h]))
    · simp only [if_neg hcond] at hp
      rcases mem_insertA _ _ _ _ hp with h | h
      · exact Or.inl (hbase p h)
      · exact Or.inr (Or.inr (by rw [h]))

theorem reach_slugOk (st : RegState) (hreach : Reach st) :
    ∀ p ∈ st.backends, slugOk p.1 := by
  induction hreach with
  | init =>
    intro p hp
    simp [emptyReg] at hp
  | prune st' now staleAfter _ ih =>
    intro p hp
    simp only [prune] at hp
    exact ih p (List.mem_of_mem_filter hp)
  | upsert st' now port n pth v _ ih =>
    intro p hp
    rcases mem_upsert_backends st' now port n pth v p hp with h | h | h
    · exact ih p h
    · exact h ▸ slugOk_slugify pth
    · exact h ▸ slugOk_slugify_port pth port

theorem stringMk_data (s : String) : String.mk s.data = s := rfl

theorem splitOnceSlash_no_slash (s : List Char) (h : ∀ c ∈ s, c ≠ '/') :
    splitOnceSlash s = (s, none) := by
  induction s with
  | nil => rfl
  | cons c cs ih =>
    have hc : ¬ (c = '/') := h c (List.mem_cons_self c cs)
    have := ih (fun x hx => h x (List.mem_cons_of_mem c hx))
    simp [splitOnceSlash, hc, this]

theorem splitOnceSlash_append_slash (s t : List Char) (h : ∀ c ∈ s, c ≠ '/') :
    splitOnceSlash (s ++ '/' :: t) = (s, some t) := by
  induction s with
  | nil => simp [splitOnceSlash]
  | cons c cs ih =>
    have hc : ¬ (c = '/') := h c (List.mem_cons_self c cs)
    have := ih (fun x hx => h x (List.mem_cons_of_mem c hx))
    simp [splitOnceSlash, hc, this]

theorem string_ne_empty_of_data (s : String) (h : s.data ≠ []) : s ≠ "" := by
  intro he
  apply h
  rw [he]

theorem data_slash_append (s t : String) :
    ("/" ++ s ++ t).data = '/' :: (s.data ++ t.data) := by
  have h1 : ("/" : String).data = ['/'] := rfl
  simp [String.data_append, h1]

theorem slugFromPath_slug (s t : String) (hne : s.data ≠ [])
    (hsl : ∀ c ∈ s.data, c ≠ '/') (ht : t = "" ∨ t.data.head? = some '/') :
    slugFromPath ("/" ++ s ++ t) = (s, if t = "" then "/" else t) := by
  have happ : s.data ++ t.data ≠ [] := by
    intro h
    exact hne (List.append_eq_nil.mp h).1
  simp only [slugFromPath, data_slash_append, if_neg happ]
  rcases ht with ht | ht
  · subst ht
    have hT : (("" : String)).data = ([] : List Char) := rfl
    rw [hT, List.append_nil, splitOnceSlash_no_slash s.data hsl]
    simp [stringMk_data]
  · cases hd : t.data with
    | nil => rw [hd] at ht; simp at ht
    | cons c r =>
      rw [hd] at ht
      simp only [List.head?_cons, Option.some.injEq] at ht
      subst ht
      rw [splitOnceSlash_append_slash s.data r hsl]
      have htne : t ≠ "" := string_ne_empty_of_data t (by rw [hd]; simp)
      simp only [if_neg htne]
      have : String.mk ('/' :: r) = t := by
        rw [← hd]
      simp [stringMk_data, this]

theorem slugFromPath_snd_ne (path s rem : String)
    (h : slugFromPath path = (s, rem)) (hs : s ≠ "") : rem ≠ "" := by
  unfold slugFromPath at h
  generalize hT : (match path.data with
    | '/' :: rest => rest
    | l => l) = T at h
  cases T with
  | nil =>
    simp only [if_pos rfl] at h
    exact absurd (Prod.ext_iff.mp h).1.symm hs
  | cons c cs =>
    have hTne : ¬ (c :: cs = ([] : List Char)) := by simp
    rw [if_neg hTne] at h
    have h3 : (String.mk (splitOnceSlash (c :: cs)).1,
        (match (splitOnceSlash (c :: cs)).2 with
          | some rest => String.mk ('/' :: rest)
          | none => ("/" : String))) = (s, rem) := h
    simp only [Prod.mk.injEq] at h3
    cases h2 : (splitOnceSlash (c :: cs)).2 with
    | none =>
      rw [h2] at h3
      rw [← h3.2]
      decide
    | some rest =>
      rw [h2] at h3
      rw [← h3.2]
      show ¬ String.mk ('/' :: rest) = ""
      apply string_ne_empty_of_data
      simp

theorem hostMiss_first_stage (st : RegState) (username host : String)
    (h : hostMiss st username host) :
    (if slugFromHost username host = "" then none
     else lookupA st.backends (slugFromHost username host)) = (none : Option Backend) := by
  rcases h with h | h
  · simp [h]
  · by_cases h0 : slugFromHost username host = "" <;> simp [h0, h]

theorem data_empty : ("" : String).data = [] := rfl

/-- C6 (amended): for a registered slug `s` and a suffix `t` that is empty
or begins with `/`, a request with path `/<s><t>` whose host does not
select a backend is proxied to `s`'s backend with outbound path `t`
(`/` when `t` is empty). -/
theorem path_routing_strips_first_segment (st : RegState)
    (username host s t : String) (b : Backend) (hreach : Reach st)
    (hb : lookupA st.backends s = some b) (hmiss : hostMiss st username host)
    (ht : t = "" ∨ t.data.head? = some '/') :
    serveHTTP st username host ("/" ++ s ++ t) =
      Routed.proxy b (if t = "" then "/" else t) := by
  have hok : slugOk s := reach_slugOk st hreach (s, b) (lookupA_mem _ _ _ hb)
  have hne : s.data ≠ [] := by
    intro h
    exact hok.1 (String.ext (h.trans data_empty.symm))
  have hsplit := slugFromPath_slug s t hne hok.2 ht
  have hfirst := hostMiss_first_stage st username host hmiss
  have hremne : (if t = "" then ("/" : String) else t) ≠ "" := by
    rcases ht with ht | ht
    · subst ht
      decide
    · have htne : t ≠ "" := by
        intro h
        rw [h] at ht
        simp [data_empty] at ht
      simp only [if_neg htne]
      exact htne
  simp only [serveHTTP, hfirst, hsplit, if_neg hok.1, hb, proxyOutPath,
    if_neg hremne]

/-- C6 counterexample: with only `proj` registered, the inbound path
`"/proj" ++ "x"` (suffix `t = "x"`, which the claim's universal
quantification over suffixes covers) is NOT forwarded to `proj`'s backend:
the first path segment is `projx`, which is unregistered, so the request
falls through to the dashboard. -/
theorem path_routing_counterexample :
    lookupA regStA.backends "proj" = some ⟨5000, "a", "/x/proj", "proj", "1", 1⟩ ∧
    hostMiss regStA "alice" "h" ∧
    serveHTTP regStA "alice" "h" ("/" ++ "proj" ++ "x") = Routed.dashboard :=
  ⟨by decide, Or.inl (by decide), by decide⟩

/-- C7: request classification tries the host header, then the first path
segment, and only then the control API: whenever the host does not select
a backend and the first path segment is a registered slug, the request is
proxied to that backend — including when the full path is exactly
`/api/backends`, `/api/health` or `/api/resolve`, so a slug named `api`
shadows the control API. -/
theorem path_proxy_precedes_api (st : RegState)
    (username host path s rem : String) (b : Backend)
    (hmiss : hostMiss st username host)
    (hsplit : slugFromPath path = (s, rem)) (hs : s ≠ "")
    (hb : lookupA st.backends s = some b) :
    serveHTTP st username host path = Routed.proxy b rem := by
  have hremne : rem ≠ "" := slugFromPath_snd_ne path s rem hsplit hs
  have hfirst := hostMiss_first_stage st username host hmiss
  simp only [serveHTTP, hfirst, hsplit, if_neg hs, hb, proxyOutPath,
    if_neg hremne]

/-- Registry with a backend whose slug is literally `api`. -/
def stApi : RegState := (upsert emptyReg 1 8000 "api" "/x/api" "1").1

/-- Witness for `path_proxy_precedes_api`: a registered slug `api` captures
the request for `/api/backends`. -/
theorem path_proxy_precedes_api_witness :
    (hostMiss stApi "alice" "example.com" ∧
      slugFromPath "/api/backends" = ("api", "/backends") ∧
      ("api" : String) ≠ "" ∧
      lookupA stApi.backends "api" = some ⟨8000, "api", "/x/api", "api", "1", 1⟩) ∧
    serveHTTP stApi "alice" "example.com" "/api/backends" =
      Routed.proxy ⟨8000, "api", "/x/api", "api", "1", 1⟩ "/backends" :=
  ⟨⟨Or.inl (by decide), by decide, by decide, by decide⟩,
    path_proxy_precedes_api stApi "alice" "example.com" "/api/backends" "api" "/backends" _
      (Or.inl (by decide)) (by decide) (by decide) (by decide)⟩

/-- Witness for `path_routing_strips_first_segment`: the spec's scenario
`GET /proj/api/v1/health` reaches the backend as `/api/v1/health`. -/
theorem path_routing_strips_first_segment_witness :
    (lookupA regStA.backends "proj" = some ⟨5000, "a", "/x/proj", "proj", "1", 1⟩ ∧
      hostMiss regStA "alice" "h" ∧
      (("/api/v1/health" : String) = "" ∨
        ("/api/v1/health" : String).data.head? = some '/')) ∧
    serveHTTP regStA "alice" "h" ("/" ++ "proj" ++ "/api/v1/health") =
      Routed.proxy ⟨5000, "a", "/x/proj", "proj", "1", 1⟩
        (if ("/api/v1/health" : String) = "" then "/" else "/api/v1/health") :=
  ⟨⟨by decide, Or.inl (by decide), Or.inr (by decide)⟩,
    path_routing_strips_first_segment regStA "alice" "h" "proj" "/api/v1/health" _
      (Reach.upsert emptyReg 1 5000 "a" "/x/proj" "1" Reach.init)
      (by decide) (Or.inl (by decide)) (Or.inr (by decide))⟩

/-! ## The resolve endpoint (`handleAPIResolve` in part_006) -/

/-- `Config.DomainFor` from internal/config/config.go. -/
def DomainFor (username slug : String) : String :=
  slug ++ "-" ++ username ++ ".local"

/-- The response bodies `handleAPIResolve` can produce. -/
inductive ResolveBody
  | errText (msg : String)
  | notFound (query detail : String)
  | found (slug projectName projectPath : String) (port : Int)
      (version domain pathPfx url : String) (lastSeen : Nat)
deriving DecidableEq, Repr

/-- `handleAPIResolve` from part_006: method check, parameter check,
lookup by `path` (via `LookupByPath`) or by `name` (via
`Lookup(Slugify(name))`), 404 with the echoed query on a miss, routing
info on a hit.  Query parameters are `""` when absent, exactly as Go's
`r.URL.Query().Get` reports them. -/
def handleAPIResolve (st : RegState) (username : String) (listenPort : Int)
    (method pathParam nameParam : String) : Nat × ResolveBody :=
  if method ≠ "GET" then (405, ResolveBody.errText "method not allowed")
  else if pathParam = "" ∧ nameParam = "" then
    (400, ResolveBody.errText "missing \"path\" or \"name\" query parameter")
  else
    let r := if pathParam ≠ "" then lookupByPath st pathParam
             else lookupA st.backends (Slugify nameParam)
    match r with
    | none =>
      let query := if pathParam ≠ "" then pathParam else nameParam
      (404, ResolveBody.notFound query "no backend found for this project")
    | some b =>
      (200, ResolveBody.found b.slug b.projectName b.projectPath b.port b.version
        (DomainFor username b.slug) ("/" ++ b.slug ++ "/")
        ("http://localhost:" ++ intDec listenPort ++ "/" ++ b.slug ++ "/") b.lastSeen)

/-- C8: `/api/resolve` error handling.  Non-GET methods get 405; a GET
with neither `path` nor `name` gets 400 with the message
`missing "path" or "name" query parameter`; a GET whose parameter resolves
no backend gets 404 with a `not_found` body echoing the supplied value
(the `path` parameter takes precedence in the echo, as in the source). -/
theorem resolve_error_handling (st : RegState) (username : String)
    (listenPort : Int) (method pathParam nameParam : String) :
    (method ≠ "GET" →
      handleAPIResolve st username listenPort method pathParam nameParam =
        (405, ResolveBody.errText "method not allowed")) ∧
    (pathParam = "" → nameParam = "" →
      handleAPIResolve st username listenPort "GET" pathParam nameParam =
        (400, ResolveBody.errText "missing \"path\" or \"name\" query parameter")) ∧
    (pathParam ≠ "" → lookupByPath st pathParam = none →
      handleAPIResolve st username listenPort "GET" pathParam nameParam =
        (404, ResolveBody.notFound pathParam "no backend found for this project")) ∧
    (pathParam = "" → nameParam ≠ "" → lookupA st.backends (Slugify nameParam) = none →
      handleAPIResolve st username listenPort "GET" pathParam nameParam =
        (404, ResolveBody.notFound nameParam "no backend found for this project")) := by
  refine ⟨?_, ?_, ?_, ?_⟩
  · intro hm
    simp [handleAPIResolve, hm]
  · intro hp hn
    simp [handleAPIResolve, hp, hn]
  · intro hp hlk
    have hGET : ¬ (("GET" : String) ≠ "GET") := by simp
    have hparam : ¬ (pathParam = "" ∧ nameParam = "") := fun h => hp h.1
    simp only [handleAPIResolve, if_neg hGET, if_neg hparam, if_pos hp, hlk,
      if_pos hp]
  · intro hp hn hlk
    have hGET : ¬ (("GET" : String) ≠ "GET") := by simp
    have hparam : ¬ (pathParam = "" ∧ nameParam = "") := fun h => hn h.2
    have hp' : ¬ (pathParam ≠ "") := by simp [hp]
    simp only [handleAPIResolve, if_neg hGET, if_neg hparam, if_neg hp', hlk]

/-- Witness for `resolve_error_handling` on the empty registry: POST gets
405, a bare GET gets 400, and `GET /api/resolve?name=ghost` gets the
`not_found` body echoing `ghost`. -/
theorem resolve_error_handling_witness :
    ((("POST" : String) ≠ "GET") ∧
      (("" : String) = "" ∧ ("ghost" : String) ≠ "" ∧
        lookupA emptyReg.backends (Slugify "ghost") = none)) ∧
    ((("POST" : String) ≠ "GET" →
      handleAPIResolve emptyReg "alice" 8080 "POST" "" "ghost" =
        (405, ResolveBody.errText "method not allowed")) ∧
    (("" : String) = "" → ("ghost" : String) = "" →
      handleAPIResolve emptyReg "alice" 8080 "GET" "" "ghost" =
        (400, ResolveBody.errText "missing \"path\" or \"name\" query parameter")) ∧
    (("" : String) ≠ "" → lookupByPath emptyReg "" = none →
      handleAPIResolve emptyReg "alice" 8080 "GET" "" "ghost" =
        (404, ResolveBody.notFound "" "no backend found for this project")) ∧
    (("" : String) = "" → ("ghost" : String) ≠ "" →
      lookupA emptyReg.backends (Slugify "ghost") = none →
      handleAPIResolve emptyReg "alice" 8080 "GET" "" "ghost" =
        (404, ResolveBody.notFound "ghost" "no backend found for this project"))) ∧
    handleAPIResolve emptyReg "alice" 8080 "POST" "" "ghost" =
      (405, ResolveBody.errText "method not allowed") ∧
    handleAPIResolve emptyReg "alice" 8080 "GET" "" "" =
      (400, ResolveBody.errText "missing \"path\" or \"name\" query parameter") ∧
    handleAPIResolve emptyReg "alice" 8080 "GET" "" "ghost" =
      (404, ResolveBody.notFound "ghost" "no backend found for this project") :=
  ⟨⟨by decide, by decide, by decide, by decide⟩,
    resolve_error_handling emptyReg "alice" 8080 "POST" "" "ghost",
    (resolve_error_handling emptyReg "alice" 8080 "POST" "" "ghost").1 (by decide),
    (resolve_error_handling emptyReg "alice" 8080 "GET" "" "").2.1 rfl rfl,
    (resolve_error_handling emptyReg "alice" 8080 "GET" "" "ghost").2.2.2 rfl
      (by decide) (by decide)⟩

/-! ## The mDNS advertiser (internal/discovery/discovery.go) -/

/-- Advertiser state: the `servers` map (slug → live `zeroconf.Server`
handle, embedded as an id drawn from `nextId`).  Registration is modeled
as always succeeding; a zeroconf failure is external network I/O under
which the slug is simply not added and is retried on a later sync. -/
structure AdvState where
  servers : List (String × Nat)
  nextId : Nat
deriving DecidableEq, Repr

/-- The registration loop of `Sync`: walk the snapshot, skip slugs already
advertised, register the rest with fresh handles.  Returns the new map,
the next fresh id, and the slugs registered on this pass. -/
def registerAll : List (String × Nat) → Nat → List Backend →
    List (String × Nat) × Nat × List String
  | servers, nextId, [] => (servers, nextId, [])
  | servers, nextId, b :: rest =>
    if (lookupA servers b.slug).isSome then registerAll servers nextId rest
    else
      let r := registerAll (servers ++ [(b.slug, nextId)]) (nextId + 1) rest
      (r.1, r.2.1, b.slug :: r.2.2)

/-- `Advertiser.Sync(backends)`: tear down advertisements whose slug left
the snapshot, register new slugs, leave unchanged ones untouched.
Returns the new state, the slugs torn down, and the slugs registered. -/
def advSync (a : AdvState) (backends : List Backend) :
    AdvState × List String × List String :=
  let current := backends.map Backend.slug
  let kept := a.servers.filter (fun e => decide (e.1 ∈ current))
  let removed := (a.servers.filter (fun e => !(decide (e.1 ∈ current)))).map Prod.fst
  let r := registerAll kept a.nextId backends
  (⟨r.1, r.2.1⟩, removed, r.2.2)

theorem lookupA_isSome_of_mem_keys {α β : Type} [DecidableEq α]
    (l : List (α × β)) (k : α) (h : k ∈ l.map Prod.fst) :
    (lookupA l k).isSome = true := by
  induction l with
  | nil => simp at h
  | cons hd tl ih =>
    obtain ⟨k₀, v₀⟩ := hd
    by_cases h₀ : k₀ = k
    · simp [lookupA, h₀]
    · simp only [List.map_cons, List.mem_cons] at h
      rcases h with h | h
      · exact absurd h.symm h₀
      · simp [lookupA, h₀, ih h]

theorem registerAll_keys (servers : List (String × Nat)) (nextId : Nat)
    (bs : List Backend) (k : String)
    (h : k ∈ (registerAll servers nextId bs).1.map Prod.fst) :
    k ∈ servers.map Prod.fst ∨ k ∈ bs.map Backend.slug := by
  induction bs generalizing servers nextId with
  | nil =>
    simp only [registerAll] at h
    exact Or.inl h
  | cons b rest ih =>
    by_cases hb : (lookupA servers b.slug).isSome = true
    · simp only [registerAll, if_pos hb] at h
      rcases ih _ _ h with h' | h'
      · exact Or.inl h'
      · exact Or.inr (List.mem_cons_of_mem _ h')
    · simp only [registerAll, if_neg hb] at h
      rcases ih _ _ h with h' | h'
      · rw [List.map_append, List.mem_append] at h'
        rcases h' with h'' | h''
        · exact Or.inl h''
        · simp only [List.map_cons, List.map_nil, List.mem_singleton] at h''
          exact Or.inr (by simp [h''])
      · exact Or.inr (List.mem_cons_of_mem _ h')

theorem registerAll_mem_keys (servers : List (String × Nat)) (nextId : Nat)
    (bs : List Backend) (k : String) (h : k ∈ servers.map Prod.fst) :
    k ∈ (registerAll servers nextId bs).1.map Prod.fst := by
  induction bs generalizing servers nextId with
  | nil => simpa [registerAll] using h
  | cons b rest ih =>
    by_cases hb : (lookupA servers b.slug).isSome = true
    · simp only [registerAll, if_pos hb]
      exact ih _ _ h
    · simp only [registerAll, if_neg hb]
      exact ih _ _ (by rw [List.map_append, List.mem_append]; exact Or.inl h)

theorem registerAll_covers (servers : List (String × Nat)) (nextId : Nat)
    (bs : List Backend) (b : Backend) (h : b ∈ bs) :
    b.slug ∈ (registerAll servers nextId bs).1.map Prod.fst := by
  induction bs generalizing servers nextId with
  | nil => simp at h
  | cons b₀ rest ih =>
    by_cases hb : (lookupA servers b₀.slug).isSome = true
    · simp only [registerAll, if_pos hb]
      rcases List.mem_cons.mp h with h' | h'
      · subst h'
        apply registerAll_mem_keys
        cases hl : lookupA servers b.slug with
        | none => rw [hl] at hb; simp at hb
        | some v =>
          have := lookupA_mem _ _ _ hl
          exact List.mem_map_of_mem Prod.fst this
      · exact ih _ _ h'
    · simp only [registerAll, if_neg hb]
      rcases List.mem_cons.mp h with h' | h'
      · subst h'
        apply registerAll_mem_keys
        rw [List.map_append, List.mem_append]
        right
        simp
      · exact ih _ _ h'

theorem registerAll_noop (servers : List (String × Nat)) (nextId : Nat)
    (bs : List Backend) (h : ∀ b ∈ bs, (lookupA servers b.slug).isSome = true) :
    registerAll servers nextId bs = (servers, nextId, []) := by
  induction bs with
  | nil => rfl
  | cons b rest ih =>
    have hb := h b (List.mem_cons_self b rest)
    simp only [registerAll, if_pos hb]
    exact ih (fun b' hb' => h b' (List.mem_cons_of_mem b hb'))

/-- C9: `Advertiser.Sync` is a reconciler and idempotent on its snapshot:
running it a second time with the same snapshot keeps the `servers` map —
every handle included — identical, tears nothing down and registers
nothing. -/
theorem advSync_idempotent (a : AdvState) (bs : List Backend) :
    advSync (advSync a bs).1 bs = ((advSync a bs).1, [], []) := by
  set S := (advSync a bs).1 with hS
  have hkeys : ∀ k ∈ S.servers.map Prod.fst, k ∈ bs.map Backend.slug := by
    intro k hk
    rw [hS] at hk
    simp only [advSync] at hk
    rcases registerAll_keys _ _ _ _ hk with h | h
    · rcases List.mem_map.mp h with ⟨e, he, hfst⟩
      have := List.of_mem_filter he
      simp only [decide_eq_true_eq] at this
      exact hfst ▸ this
    · exact h
  have hfilter : S.servers.filter
      (fun e => decide (e.1 ∈ bs.map Backend.slug)) = S.servers := by
    apply List.filter_eq_self.mpr
    intro e he
    simp only [decide_eq_true_eq]
    exact hkeys e.1 (List.mem_map_of_mem Prod.fst he)
  have hremoved : (S.servers.filter
      (fun e => !(decide (e.1 ∈ bs.map Backend.slug)))).map Prod.fst = [] := by
    rw [List.map_eq_nil_iff, List.filter_eq_nil_iff]
    intro e he
    simp only [Bool.not_eq_true', decide_eq_false_iff_not, not_not]
    exact hkeys e.1 (List.mem_map_of_mem Prod.fst he)
  have hcov : ∀ b ∈ bs, (lookupA S.servers b.slug).isSome = true := by
    intro b hb
    apply lookupA_isSome_of_mem_keys
    rw [hS]
    simp only [advSync]
    exact registerAll_covers _ _ _ _ hb
  have hnoop : registerAll S.servers S.nextId bs = (S.servers, S.nextId, []) :=
    registerAll_noop _ _ _ hcov
  simp only [advSync, hfilter, hremoved, hnoop]
